import Mathlib

/-!
# goop2: `internal/workers/findref.go`

A shallow embedding of `FindRefWorker`, the worker that claims a path in the
dedup registry `checkedRefs`, obtains its content from the local copy or by an
HTTP GET, stores it and scans it for further paths to enqueue.

Go `string` and `[]byte` values are Lean `String`s (one `Char` per byte; every
character the two regular expressions and the string helpers look at is ASCII).
The worker is a function from the shared state before the call to the shared
state after it together with the list of effects it performed; the result is
`none` when the Go code would stop with an index-out-of-range run-time error.
-/

namespace FindRef

/-! ## Go standard library: `strings` -/

namespace strings

/-- Go `strings.HasPrefix(s, pre)`. -/
def HasPrefix (s pre : String) : Bool :=
  pre.data.isPrefixOf s.data

/-- First occurrence of the non-empty separator `sep`: the text before it and
the text after it (Go `strings.Index` followed by the two slicings of
`genSplit`). -/
def cut (sep : List Char) : List Char → Option (List Char × List Char)
  | [] => none
  | c :: rest =>
    if sep.isPrefixOf (c :: rest) then some ([], (c :: rest).drop sep.length)
    else (cut sep rest).map (fun r => (c :: r.1, r.2))

/-- Go `genSplit` for a non-empty separator and a count `n ≥ 0`: at most `n`
pieces, the last one being the unsplit remainder. -/
def splitN (sep : List Char) : Nat → List Char → List (List Char)
  | 0, _ => []
  | 1, s => [s]
  | n + 2, s =>
    match cut sep s with
    | none => [s]
    | some (before, after) => before :: splitN sep (n + 1) after

/-- Go `strings.SplitN(s, sep, n)` for a non-empty `sep` and `n ≥ 0`. -/
def SplitN (s sep : String) (n : Nat) : List String :=
  (splitN sep.data n s.data).map String.mk

/-- Go `strings.Trim(s, cutset)`: all leading and trailing characters contained
in `cutset` removed. -/
def Trim (s cutset : String) : String :=
  String.mk
    ((s.data.dropWhile (fun c => cutset.data.contains c)).reverse.dropWhile
      (fun c => cutset.data.contains c)).reverse

end strings

/-! ## The two regular expressions (lines 18 and 19) -/

/-- The character class `[a-zA-Z0-9\-\.\_\*]` of `refRegex`. -/
def isRefChar (c : Char) : Bool :=
  c.isAlphanum || c == '-' || c == '.' || c == '_' || c == '*'

/-- The tail `(/[a-zA-Z0-9\-\.\_\*]+)*` of a `refRegex` match, greedy: `inSegment`
tells whether the previous character belongs to a segment already begun. A `/`
is taken only when a class character follows it, a class character only inside
a segment. Since `/` is outside the class and the tail may stop anywhere after
a complete segment, the greedy choice is never undone. -/
def refSegments : Bool → List Char → List Char
  | _, [] => []
  | inSegment, c :: rest =>
    if isRefChar c then
      if inSegment then c :: refSegments true rest else []
    else if c = '/' ∧ rest.head?.map isRefChar = some true then
      '/' :: refSegments true rest
    else []

/-- The match of `refs(/[a-zA-Z0-9\-\.\_\*]+)+` anchored at the start of `s`:
the literal `refs` followed by at least one segment. -/
def refRegex.matchAt (s : List Char) : Option (List Char) :=
  if "refs".data.isPrefixOf s then
    match refSegments false (s.drop 4) with
    | [] => none
    | m => some ("refs".data ++ m)
  else none

/-- Successive non-overlapping leftmost matches of `refRegex`; `skip` counts
the characters still covered by the previous match. -/
def refRegex.scan : Nat → List Char → List (List Char)
  | _, [] => []
  | skip + 1, _ :: rest => refRegex.scan skip rest
  | 0, c :: rest =>
    match refRegex.matchAt (c :: rest) with
    | some m => m :: refRegex.scan (m.length - 1) rest
    | none => refRegex.scan 0 rest

/-- Go `refRegex.FindAll(content, -1)`. -/
def refRegex.FindAll (content : String) : List String :=
  (refRegex.scan 0 content.data).map String.mk

/-- The class `["']` of `branchRegex`. -/
def isQuote (c : Char) : Bool :=
  c == Char.ofNat 34 || c == Char.ofNat 39

/-- The part `.*["']` of `branchRegex` by backtracking, greedy: `.` takes any
character but the newline and as many as still leave a closing quote. Returns
the text taken by `.*` and the closing quote. -/
def dotStarQuote : List Char → Option (List Char × Char)
  | [] => none
  | c :: rest =>
    if c = '\n' then none
    else
      match dotStarQuote rest with
      | some (cap, q) => some (c :: cap, q)
      | none => if isQuote c then some ([], c) else none

/-- The match of `branch ["'](.+)["']` anchored at the start of `s`: the whole
match and the text of the capture group. -/
def branchRegex.matchAt (s : List Char) : Option (List Char × List Char) :=
  if "branch ".data.isPrefixOf s then
    match s.drop 7 with
    | q :: c :: rest =>
      if isQuote q ∧ c ≠ '\n' then
        match dotStarQuote rest with
        | some (cap, q2) => some ("branch ".data ++ q :: c :: cap ++ [q2], c :: cap)
        | none => none
      else none
    | _ => none
  else none

/-- Successive non-overlapping leftmost matches of `branchRegex`, each as the
Go slice `[whole match, group 1]`. -/
def branchRegex.scan : Nat → List Char → List (List (List Char))
  | _, [] => []
  | skip + 1, _ :: rest => branchRegex.scan skip rest
  | 0, c :: rest =>
    match branchRegex.matchAt (c :: rest) with
    | some (m, cap) => [m, cap] :: branchRegex.scan (m.length - 1) rest
    | none => branchRegex.scan 0 rest

/-- Go `branchRegex.FindAllSubmatch(content, -1)`. -/
def branchRegex.FindAllSubmatch (content : String) : List (List String) :=
  (branchRegex.scan 0 content.data).map (fun m => m.map String.mk)

/-! ## Collaborators outside `findref.go` -/

namespace utils

/-- Modelled from the spec: `utils.Url` is not part of the source file; the
spec gives the local store mapping as `base/path` and the derived paths as
`join(".git", m)`. -/
def Url (base path : String) : String :=
  base ++ "/" ++ path

/-- Modelled from the spec: `utils.IsEmptyBytes` is not part of the source
file; the spec says "If the body is empty, discard and stop". -/
def IsEmptyBytes (body : String) : Bool :=
  body.data.isEmpty

/-- Modelled from the spec: `utils.Exists` is not part of the source file; the
spec says "If that location already holds content". `files` is the local
store. -/
def Exists (files : String → Option String) (file : String) : Bool :=
  (files file).isSome

end utils

/-- The result of `c.C.Get(nil, uri)`: status code, body and whether `err` is
non-nil. -/
structure Response where
  code : Int
  body : String
  err : Bool
deriving DecidableEq

/-- A section of a parsed configuration (`gopkg.in/ini.v1`): `Name` is
`sec.Name()`, `Key k` is `sec.Key(k).String()`. -/
structure Section where
  Name : String
  Key : String → String

/-- The context handed to every invocation (lines 24 to 28); the HTTP client
`C` is the function answering a GET. -/
structure FindRefContext where
  C : String → Response
  BaseUrl : String
  BaseDir : String

/-- What the collaborators outside the source file answer during one
invocation: the effect of `checkRatelimted()` on the rate-limit flag (besides
pausing), `utils.IsHtml`, `ini.Load` (`none` is a parse error), and whether
reading, creating the parent folders of, or writing a local file fails. -/
structure Env where
  checkRatelimted : Bool → Bool
  IsHtml : String → Bool
  iniLoad : String → Option (List Section)
  readErr : String → Bool
  mkdirErr : String → Bool
  writeErr : String → Bool

/-- The state shared by all invocations: the keys of the map `checkedRefs`
(line 21; only `true` is ever stored), the rate-limit flag and the local
store. -/
structure World where
  checkedRefs : List String
  ratelimited : Bool
  files : String → Option String

/-- What one invocation does to the outside. -/
inductive Effect where
  | ReadFile (file : String)
  | Get (uri : String)
  | CreateParentFolders (file : String)
  | WriteFile (file : String) (body : String)
  | AddJob (path : String)
deriving DecidableEq

/-- Modelled from the spec: `setRatelimited` is not part of the source file;
the spec's `setLimited()` makes the single global boolean set. -/
def setRatelimited (w : World) : World :=
  { w with ratelimited := true }

/-- Go `ioutil.ReadFile(file)`: `none` is an error. -/
def ReadFile (env : Env) (w : World) (file : String) : Option String :=
  if env.readErr file then none else w.files file

/-! ## `FindRefWorker` (lines 30 to 149) -/

/-- The local location of a path (lines 45 to 48). -/
def targetFile (c : FindRefContext) (path : String) : String :=
  if path = ".git/config" ∨ path = ".git/config.worktree" then
    utils.Url c.BaseDir (path ++ ".goop")
  else
    utils.Url c.BaseDir path

/-- The loop over `refRegex.FindAll` (lines 56 to 59 and 121 to 124). -/
def refLoop : List String → List Effect
  | [] => []
  | ref :: rest =>
    Effect.AddJob (utils.Url ".git" ref) :: Effect.AddJob (utils.Url ".git/logs" ref) ::
      refLoop rest

/-- The loop over `branchRegex.FindAllSubmatch` (lines 62 to 65 and 127 to
130); `none` when `branch[1]` is out of range. -/
def branchLoop : List (List String) → Option (List Effect)
  | [] => some []
  | branch :: rest =>
    match branch[1]? with
    | none => none
    | some b =>
      (branchLoop rest).map fun js =>
        Effect.AddJob (".git/refs/remotes/origin/" ++ b) ::
          Effect.AddJob (".git/logs/refs/remotes/origin/" ++ b) :: js

/-- The loop over `cfg.Sections()` (lines 73 to 82 and 138 to 147); `none`
when `parts[1]` is out of range. -/
def sectionLoop : List Section → Option (List Effect)
  | [] => some []
  | sec :: rest =>
    if strings.HasPrefix sec.Name "branch " then
      match (strings.SplitN sec.Name " " 2)[1]? with
      | none => none
      | some part =>
        let branch := strings.Trim part "\""
        let remote := sec.Key "remote"
        (sectionLoop rest).map fun js =>
          Effect.AddJob (".git/refs/remotes/" ++ remote ++ "/" ++ branch) ::
            Effect.AddJob (".git/logs/refs/remotes/" ++ remote ++ "/" ++ branch) :: js
    else sectionLoop rest

/-- The worker. `none` is a run-time error of the Go code (index out of
range); otherwise the shared state after the call and the effects performed,
in order. -/
def FindRefWorker (env : Env) (c : FindRefContext) (w0 : World) (path : String) :
    Option (World × List Effect) :=
  -- line 33
  let w1 : World := { w0 with ratelimited := env.checkRatelimted w0.ratelimited }
  -- lines 35 to 43
  if path ∈ w1.checkedRefs then
    some (w1, [])
  else
    let w : World := { w1 with checkedRefs := path :: w1.checkedRefs }
    let target := targetFile c path
    if utils.Exists w.files target then
      -- lines 50 to 84
      match ReadFile env w target with
      | none => some (w, [Effect.ReadFile target])
      | some content =>
        let e1 := Effect.ReadFile target :: refLoop (refRegex.FindAll content)
        match (if path = ".git/FETCH_HEAD" then
                branchLoop (branchRegex.FindAllSubmatch content) else some []) with
        | none => none
        | some e2 =>
          if path = ".git/config" ∨ path = ".git/config.worktree" then
            match env.iniLoad content with
            | none => some (w, e1 ++ e2)
            | some sections =>
              match sectionLoop sections with
              | none => none
              | some e3 => some (w, e1 ++ e2 ++ e3)
          else some (w, e1 ++ e2)
    else
      -- lines 87 to 100
      let uri := utils.Url c.BaseUrl path
      let r := c.C uri
      if r.err = false ∧ r.code ≠ 200 then
        if r.code = 429 then
          some (setRatelimited w, [Effect.Get uri, Effect.AddJob path])
        else some (w, [Effect.Get uri])
      else if r.err = true then
        some (w, [Effect.Get uri])
      -- lines 102 to 117
      else if env.IsHtml r.body then
        some (w, [Effect.Get uri])
      else if utils.IsEmptyBytes r.body then
        some (w, [Effect.Get uri])
      else if env.mkdirErr target then
        some (w, [Effect.Get uri, Effect.CreateParentFolders target])
      else if env.writeErr target then
        some (w, [Effect.Get uri, Effect.CreateParentFolders target,
          Effect.WriteFile target r.body])
      else
        let w2 : World :=
          { w with files := fun f => if f = target then some r.body else w.files f }
        -- lines 121 to 148
        let e1 := [Effect.Get uri, Effect.CreateParentFolders target,
          Effect.WriteFile target r.body] ++ refLoop (refRegex.FindAll r.body)
        match (if path = ".git/FETCH_HEAD" then
                branchLoop (branchRegex.FindAllSubmatch r.body) else some []) with
        | none => none
        | some e2 =>
          if path = ".git/config" ∨ path = ".git/config.worktree" then
            match env.iniLoad r.body with
            | none => some (w2, e1 ++ e2)
            | some sections =>
              match sectionLoop sections with
              | none => none
              | some e3 => some (w2, e1 ++ e2 ++ e3)
          else some (w2, e1 ++ e2)

/-- The Work Items emitted (`jt.AddJob`) among a list of effects, in order. -/
def jobs : List Effect → List String
  | [] => []
  | Effect.AddJob p :: rest => p :: jobs rest
  | _ :: rest => jobs rest

/-- The URIs requested (`c.C.Get`) among a list of effects, in order. -/
def fetches : List Effect → List String
  | [] => []
  | Effect.Get uri :: rest => uri :: fetches rest
  | _ :: rest => fetches rest

/-- The local files written (`ioutil.WriteFile`) among a list of effects. -/
def writes : List Effect → List String
  | [] => []
  | Effect.WriteFile file _ :: rest => file :: writes rest
  | _ :: rest => writes rest

/-- One invocation of a sequence: its collaborators, its context and its
path. -/
structure Invocation where
  env : Env
  c : FindRefContext
  path : String

/-- A sequence of invocations sharing one state, one after the other: the
state at the end and all effects in order. -/
def runAll : World → List Invocation → Option (World × List Effect)
  | w, [] => some (w, [])
  | w, i :: rest =>
    match FindRefWorker i.env i.c w i.path with
    | none => none
    | some (w1, e1) =>
      match runAll w1 rest with
      | none => none
      | some (w2, e2) => some (w2, e1 ++ e2)

/-! ## What the worker emits, stated without the loops -/

/-- The names captured by `branchRegex`, in order of occurrence. -/
def branchNames (content : String) : List String :=
  (branchRegex.FindAllSubmatch content).filterMap (fun m => m[1]?)

/-- The two Work Items of a branch declaration, the remote `origin` assumed. -/
def originItems (b : String) : List String :=
  [".git/refs/remotes/origin/" ++ b, ".git/logs/refs/remotes/origin/" ++ b]

/-- The two Work Items of a reference match `m`: `join(".git", m)` and
`join(".git/logs", m)`. -/
def refItems (m : String) : List String :=
  [utils.Url ".git" m, utils.Url ".git/logs" m]

/-- The remainder of a section name after its first space. -/
def afterFirstSpace (name : String) : String :=
  String.mk ((name.data.dropWhile (fun c => c != ' ')).drop 1)

/-- The Work Items of one configuration section in the words of the spec: for
a section whose name starts with `branch `, the remote-tracking ref and its log
under the section's `remote`, the branch being the quote-trimmed remainder of
the name after the first space; nothing for any other section. -/
def sectionItems (sec : Section) : List String :=
  if strings.HasPrefix sec.Name "branch " then
    [".git/refs/remotes/" ++ sec.Key "remote" ++ "/" ++
        strings.Trim (afterFirstSpace sec.Name) "\"",
     ".git/logs/refs/remotes/" ++ sec.Key "remote" ++ "/" ++
        strings.Trim (afterFirstSpace sec.Name) "\""]
  else []

/-- All Work Items the worker emits for a path once it holds the content: the
items of the reference matches, then, for `.git/FETCH_HEAD`, those of the
branch declarations, then, for the two configuration paths whose content
parses, those of the sections. -/
def extracted (env : Env) (path content : String) : List String :=
  (refRegex.FindAll content).flatMap refItems ++
    (if path = ".git/FETCH_HEAD" then (branchNames content).flatMap originItems else []) ++
    (if path = ".git/config" ∨ path = ".git/config.worktree" then
      match env.iniLoad content with
      | none => []
      | some sections => sections.flatMap sectionItems
    else [])

/-- The state right after the claim gate let `path` through. -/
def claimed (env : Env) (w : World) (path : String) : World :=
  { checkedRefs := path :: w.checkedRefs
    ratelimited := env.checkRatelimted w.ratelimited
    files := w.files }

/-- Fetch Outcome `Cached(content)`: the local location of `path` holds
`content` and reading it succeeds. -/
def Cached (env : Env) (c : FindRefContext) (w : World) (path content : String) : Prop :=
  w.files (targetFile c path) = some content ∧ env.readErr (targetFile c path) = false

/-- Fetch Outcome `Fetched(content)`: no local copy, the GET answers 200 with
body `content` and no transport error, the body is neither HTML nor empty, and
it is stored successfully. -/
def Fetched (env : Env) (c : FindRefContext) (w : World) (path content : String) : Prop :=
  w.files (targetFile c path) = none ∧
    c.C (utils.Url c.BaseUrl path) = { code := 200, body := content, err := false } ∧
    env.IsHtml content = false ∧ utils.IsEmptyBytes content = false ∧
    env.mkdirErr (targetFile c path) = false ∧ env.writeErr (targetFile c path) = false

instance (env : Env) (c : FindRefContext) (w : World) (path content : String) :
    Decidable (Cached env c w path content) := by
  unfold Cached
  infer_instance

instance (env : Env) (c : FindRefContext) (w : World) (path content : String) :
    Decidable (Fetched env c w path content) := by
  unfold Fetched
  infer_instance

/-- The final segment of a slash-separated file name: the text after its
last `/`. -/
def lastSegment (file : String) : String :=
  String.mk (file.data.reverse.takeWhile (fun c => c != '/')).reverse

/-! ## Concrete inputs -/

/-- Collaborators that never fail and a parser answering `sections` (`none`: a
parse error). -/
def quietEnv (sections : Option (List Section)) : Env :=
  { checkRatelimted := fun b => b
    IsHtml := fun _ => false
    iniLoad := fun _ => sections
    readErr := fun _ => false
    mkdirErr := fun _ => false
    writeErr := fun _ => false }

/-- Collaborators that never fail and take every body for an HTML page. -/
def htmlEnv : Env :=
  { quietEnv none with IsHtml := fun _ => true }

/-- A context whose server answers every GET with `r`. -/
def serverCtx (r : Response) : FindRefContext :=
  { C := fun _ => r, BaseUrl := "http://host", BaseDir := "out" }

/-- Nothing claimed, not rate limited, nothing stored. -/
def freshWorld : World :=
  { checkedRefs := [], ratelimited := false, files := fun _ => none }

/-- Nothing claimed, not rate limited, `file` stored with `content`. -/
def storedWorld (file content : String) : World :=
  { checkedRefs := [], ratelimited := false
    files := fun f => if f = file then some content else none }

/-- The section `[branch "feature"]` with `remote = upstream`. -/
def featureSection : Section :=
  { Name := "branch \"feature\"", Key := fun k => if k = "remote" then "upstream" else "" }

/-- The section `DEFAULT` that `ini.v1` puts first, without keys. -/
def defaultSection : Section :=
  { Name := "DEFAULT", Key := fun _ => "" }

/-! ## The matchers on sample inputs -/

/-- A trailing `/`, a bare `refs`, `refs/` and a doubled `/` end or prevent a
match of `refRegex`; the next search starts where the previous match ended. -/
theorem refRegex_FindAll_samples :
    refRegex.FindAll "ref: refs/heads/main\n" = ["refs/heads/main"] ∧
    refRegex.FindAll "refs/a/b/ refs refs/ refs//x refs/*/..//x" = ["refs/a/b", "refs/*/.."] ∧
    refRegex.FindAll "refs/tags/v1.0refs/x y" = ["refs/tags/v1.0refs/x"] := by
  decide

/-- The capture of `branchRegex` runs to the last quote of the line, is never
empty and never crosses a newline; the two quotes need not be the same. -/
theorem branchRegex_FindAllSubmatch_samples :
    branchRegex.FindAllSubmatch "branch 'a' of 'b'\" x\nbranch \"\"\nbranch 'x\n'" =
      [["branch 'a' of 'b'\"", "a' of 'b'"]] ∧
    branchRegex.FindAllSubmatch "branch \"dev' branch \"\"\"" =
      [["branch \"dev' branch \"\"\"", "dev' branch \"\""]] := by
  decide

/-! ## Reading the effect lists -/

theorem jobs_append (a b : List Effect) : jobs (a ++ b) = jobs a ++ jobs b := by
  induction a with
  | nil => rfl
  | cons x rest ih => cases x <;> simp [jobs, ih]

theorem jobs_map_AddJob (l : List String) : jobs (l.map Effect.AddJob) = l := by
  induction l with
  | nil => rfl
  | cons x rest ih => simp [jobs, ih]

theorem fetches_map_AddJob (l : List String) : fetches (l.map Effect.AddJob) = [] := by
  induction l with
  | nil => rfl
  | cons x rest ih => simp [fetches, ih]

/-! ## The extraction loops never run out of range -/

theorem branchRegex.scan_length (skip : Nat) (s : List Char) :
    ∀ m ∈ branchRegex.scan skip s, m.length = 2 := by
  induction s generalizing skip with
  | nil => intro m hm; simp [branchRegex.scan] at hm
  | cons c rest ih =>
    cases skip with
    | succ k => simpa [branchRegex.scan] using ih k
    | zero =>
      intro m hm
      rw [branchRegex.scan] at hm
      split at hm
      · rcases List.mem_cons.mp hm with h | h
        · subst h; rfl
        · exact ih _ m h
      · exact ih _ m hm

theorem FindAllSubmatch_length (content : String) :
    ∀ m ∈ branchRegex.FindAllSubmatch content, m.length = 2 := by
  intro m hm
  simp only [branchRegex.FindAllSubmatch, List.mem_map] at hm
  obtain ⟨x, hx, rfl⟩ := hm
  simpa using branchRegex.scan_length 0 content.data x hx

theorem branchLoop_eq (l : List (List String)) (h : ∀ m ∈ l, m.length = 2) :
    branchLoop l =
      some (((l.filterMap (fun m => m[1]?)).flatMap originItems).map Effect.AddJob) := by
  induction l with
  | nil => rfl
  | cons m rest ih =>
    have hm : m.length = 2 := h m (List.mem_cons_self _ _)
    have hrest := ih (fun x hx => h x (List.mem_cons_of_mem _ hx))
    match m, hm with
    | [a, b], _ =>
      simp [branchLoop, hrest, originItems]

theorem branchLoop_FindAllSubmatch (content : String) :
    branchLoop (branchRegex.FindAllSubmatch content) =
      some (((branchNames content).flatMap originItems).map Effect.AddJob) :=
  branchLoop_eq _ (FindAllSubmatch_length content)

theorem HasPrefix_branch {name : String} (h : strings.HasPrefix name "branch " = true) :
    ∃ t, name = String.mk ('b' :: 'r' :: 'a' :: 'n' :: 'c' :: 'h' :: ' ' :: t) := by
  unfold strings.HasPrefix at h
  rw [List.isPrefixOf_iff_prefix] at h
  obtain ⟨t, ht⟩ := h
  exact ⟨t, String.ext ht.symm⟩

theorem SplitN_branch {name : String} (h : strings.HasPrefix name "branch " = true) :
    strings.SplitN name " " 2 = ["branch", afterFirstSpace name] := by
  obtain ⟨t, rfl⟩ := HasPrefix_branch h
  simp [strings.SplitN, strings.splitN, strings.cut, afterFirstSpace, List.isPrefixOf]

theorem sectionLoop_eq (sections : List Section) :
    sectionLoop sections = some ((sections.flatMap sectionItems).map Effect.AddJob) := by
  induction sections with
  | nil => rfl
  | cons sec rest ih =>
    by_cases h : strings.HasPrefix sec.Name "branch " = true
    · simp [sectionLoop, sectionItems, h, SplitN_branch h, ih]
    · simp [sectionLoop, sectionItems, h, ih]

theorem refLoop_eq (l : List String) :
    refLoop l = (l.flatMap refItems).map Effect.AddJob := by
  induction l with
  | nil => rfl
  | cons m rest ih => simp [refLoop, refItems, ih]

/-! ## The worker, branch by branch -/

theorem FindRefWorker_claimed (env : Env) (c : FindRefContext) (w : World) (path : String)
    (h : path ∈ w.checkedRefs) :
    FindRefWorker env c w path =
      some ({ w with ratelimited := env.checkRatelimted w.ratelimited }, []) := by
  simp [FindRefWorker, h]

theorem FindRefWorker_cached (env : Env) (c : FindRefContext) (w : World)
    (path content : String) (h : path ∉ w.checkedRefs)
    (hfile : w.files (targetFile c path) = some content)
    (hread : env.readErr (targetFile c path) = false) :
    FindRefWorker env c w path =
      some (claimed env w path,
        Effect.ReadFile (targetFile c path) ::
          (extracted env path content).map Effect.AddJob) := by
  by_cases hf : path = ".git/FETCH_HEAD"
  · subst hf
    simp [FindRefWorker, h, hfile, hread, utils.Exists, ReadFile, extracted, claimed,
      branchLoop_FindAllSubmatch, refLoop_eq]
  · by_cases hc : path = ".git/config" ∨ path = ".git/config.worktree"
    · cases hini : env.iniLoad content <;>
      simp only [FindRefWorker, extracted, claimed, if_neg h, hfile, hread, utils.Exists,
        ReadFile, if_neg hf, if_pos hc, hini, sectionLoop_eq, refLoop_eq] <;> simp [hini]
    · simp only [FindRefWorker, extracted, claimed, if_neg h, hfile, hread, utils.Exists,
        ReadFile, if_neg hf, if_neg hc, refLoop_eq]
      simp

theorem FindRefWorker_fetched (env : Env) (c : FindRefContext) (w : World)
    (path body : String) (h : path ∉ w.checkedRefs)
    (hfile : w.files (targetFile c path) = none)
    (hget : c.C (utils.Url c.BaseUrl path) = { code := 200, body := body, err := false })
    (hhtml : env.IsHtml body = false) (hempty : utils.IsEmptyBytes body = false)
    (hmkdir : env.mkdirErr (targetFile c path) = false)
    (hwrite : env.writeErr (targetFile c path) = false) :
    FindRefWorker env c w path =
      some ({ claimed env w path with
                files := fun f => if f = targetFile c path then some body else w.files f },
        Effect.Get (utils.Url c.BaseUrl path) ::
          Effect.CreateParentFolders (targetFile c path) ::
          Effect.WriteFile (targetFile c path) body ::
          (extracted env path body).map Effect.AddJob) := by
  by_cases hf : path = ".git/FETCH_HEAD"
  · subst hf
    simp [FindRefWorker, h, hfile, hget, hhtml, hempty, hmkdir, hwrite, utils.Exists,
      extracted, claimed, branchLoop_FindAllSubmatch, refLoop_eq]
  · by_cases hc : path = ".git/config" ∨ path = ".git/config.worktree"
    · cases hini : env.iniLoad body <;>
      simp only [FindRefWorker, extracted, claimed, if_neg h, hfile, hget, hhtml, hempty,
        hmkdir, hwrite, utils.Exists, if_neg hf, if_pos hc, hini, sectionLoop_eq,
        refLoop_eq] <;> simp [hini]
    · simp only [FindRefWorker, extracted, claimed, if_neg h, hfile, hget, hhtml, hempty,
        hmkdir, hwrite, utils.Exists, if_neg hf, if_neg hc, refLoop_eq]
      simp

theorem FindRefWorker_ratelimited (env : Env) (c : FindRefContext) (w : World)
    (path : String) (h : path ∉ w.checkedRefs)
    (hfile : w.files (targetFile c path) = none)
    (herr : (c.C (utils.Url c.BaseUrl path)).err = false)
    (hcode : (c.C (utils.Url c.BaseUrl path)).code = 429) :
    FindRefWorker env c w path =
      some (setRatelimited (claimed env w path),
        [Effect.Get (utils.Url c.BaseUrl path), Effect.AddJob path]) := by
  simp [FindRefWorker, h, hfile, herr, hcode, utils.Exists, claimed]

theorem FindRefWorker_discarded (env : Env) (c : FindRefContext) (w : World)
    (path : String) (h : path ∉ w.checkedRefs)
    (hfile : w.files (targetFile c path) = none)
    (hcode : (c.C (utils.Url c.BaseUrl path)).code = 200)
    (hbody : env.IsHtml (c.C (utils.Url c.BaseUrl path)).body = true ∨
      utils.IsEmptyBytes (c.C (utils.Url c.BaseUrl path)).body = true) :
    FindRefWorker env c w path =
      some (claimed env w path, [Effect.Get (utils.Url c.BaseUrl path)]) := by
  have h1 : ¬((c.C (utils.Url c.BaseUrl path)).err = false ∧
      (c.C (utils.Url c.BaseUrl path)).code ≠ 200) := fun hh => hh.2 hcode
  simp only [FindRefWorker, if_neg h, hfile, utils.Exists, Option.isSome_none,
    Bool.false_eq_true, if_false, if_neg h1, claimed]
  by_cases h2 : (c.C (utils.Url c.BaseUrl path)).err = true
  · rw [if_pos h2]
  · rw [if_neg h2]
    by_cases h3 : env.IsHtml (c.C (utils.Url c.BaseUrl path)).body = true
    · rw [if_pos h3]
    · rw [if_neg h3, if_pos (hbody.resolve_left h3)]

theorem FindRefWorker_unreadable (env : Env) (c : FindRefContext) (w : World)
    (path content : String) (h : path ∉ w.checkedRefs)
    (hfile : w.files (targetFile c path) = some content)
    (hread : env.readErr (targetFile c path) = true) :
    FindRefWorker env c w path =
      some (claimed env w path, [Effect.ReadFile (targetFile c path)]) := by
  simp [FindRefWorker, h, hfile, hread, utils.Exists, ReadFile, claimed]

/-- Past the gate the worker always returns, with the path added to the
registry and nothing else changed in it. -/
theorem FindRefWorker_past_gate (env : Env) (c : FindRefContext) (w : World) (path : String)
    (h : path ∉ w.checkedRefs) :
    ∃ w1 e, FindRefWorker env c w path = some (w1, e) ∧
      w1.checkedRefs = path :: w.checkedRefs := by
  cases hfile : w.files (targetFile c path) with
  | some content =>
    cases hread : env.readErr (targetFile c path) with
    | false => exact ⟨_, _, FindRefWorker_cached env c w path content h hfile hread, rfl⟩
    | true => exact ⟨_, _, FindRefWorker_unreadable env c w path content h hfile hread, rfl⟩
  | none =>
    by_cases h1 : (c.C (utils.Url c.BaseUrl path)).err = false ∧
        (c.C (utils.Url c.BaseUrl path)).code ≠ 200
    · by_cases h429 : (c.C (utils.Url c.BaseUrl path)).code = 429
      · exact ⟨_, _, FindRefWorker_ratelimited env c w path h hfile h1.1 h429, rfl⟩
      · refine ⟨claimed env w path, [Effect.Get (utils.Url c.BaseUrl path)], ?_, rfl⟩
        simp only [FindRefWorker, if_neg h, hfile, utils.Exists, Option.isSome_none,
          Bool.false_eq_true, if_false, if_pos h1, if_neg h429, claimed]
    by_cases h2 : (c.C (utils.Url c.BaseUrl path)).err = true
    · refine ⟨claimed env w path, [Effect.Get (utils.Url c.BaseUrl path)], ?_, rfl⟩
      simp only [FindRefWorker, if_neg h, hfile, utils.Exists, Option.isSome_none,
        Bool.false_eq_true, if_false, if_neg h1, if_pos h2, claimed]
    have herr : (c.C (utils.Url c.BaseUrl path)).err = false := by simpa using h2
    have hcode : (c.C (utils.Url c.BaseUrl path)).code = 200 := by
      by_contra hne
      exact h1 ⟨herr, hne⟩
    by_cases h3 : env.IsHtml (c.C (utils.Url c.BaseUrl path)).body = true ∨
        utils.IsEmptyBytes (c.C (utils.Url c.BaseUrl path)).body = true
    · exact ⟨_, _, FindRefWorker_discarded env c w path h hfile hcode h3, rfl⟩
    have hhtml : env.IsHtml (c.C (utils.Url c.BaseUrl path)).body = false := by
      simpa using fun hh => h3 (Or.inl hh)
    have hempty : utils.IsEmptyBytes (c.C (utils.Url c.BaseUrl path)).body = false := by
      simpa using fun hh => h3 (Or.inr hh)
    by_cases h5 : env.mkdirErr (targetFile c path) = true
    · refine ⟨claimed env w path, [Effect.Get (utils.Url c.BaseUrl path),
        Effect.CreateParentFolders (targetFile c path)], ?_, rfl⟩
      simp only [FindRefWorker, if_neg h, hfile, utils.Exists, Option.isSome_none,
        Bool.false_eq_true, if_false, if_neg h1, if_neg h2, hhtml, hempty, if_pos h5, claimed]
    by_cases h6 : env.writeErr (targetFile c path) = true
    · refine ⟨claimed env w path, [Effect.Get (utils.Url c.BaseUrl path),
        Effect.CreateParentFolders (targetFile c path),
        Effect.WriteFile (targetFile c path) (c.C (utils.Url c.BaseUrl path)).body], ?_, rfl⟩
      simp only [FindRefWorker, if_neg h, hfile, utils.Exists, Option.isSome_none,
        Bool.false_eq_true, if_false, if_neg h1, if_neg h2, hhtml, hempty, if_neg h5,
        if_pos h6, claimed]
    have hget : c.C (utils.Url c.BaseUrl path) =
        { code := 200, body := (c.C (utils.Url c.BaseUrl path)).body, err := false } := by
      rw [← herr, ← hcode]
    exact ⟨_, _, FindRefWorker_fetched env c w path _ h hfile hget hhtml hempty
      (by simpa using h5) (by simpa using h6), rfl⟩

theorem FindRefWorker_isSome (env : Env) (c : FindRefContext) (w : World) (path : String) :
    (FindRefWorker env c w path).isSome = true := by
  by_cases h : path ∈ w.checkedRefs
  · rw [FindRefWorker_claimed env c w path h]; rfl
  · obtain ⟨w1, e, hw, _⟩ := FindRefWorker_past_gate env c w path h
    rw [hw]; rfl

/-! ## Sequences of invocations -/

theorem runAll_registry (invs : List Invocation) :
    ∀ w : World, ∃ w1 e added, runAll w invs = some (w1, e) ∧
      w1.checkedRefs = added ++ w.checkedRefs ∧ added.Nodup ∧
      (∀ p ∈ added, p ∉ w.checkedRefs) ∧ (∀ p ∈ added, ∃ i ∈ invs, i.path = p) := by
  induction invs with
  | nil => intro w; exact ⟨w, [], [], rfl, rfl, List.nodup_nil, by simp, by simp⟩
  | cons i rest ih =>
    intro w
    by_cases h : i.path ∈ w.checkedRefs
    · obtain ⟨w2, e2, added, hrun, hreg, hnd, hnew, hfrom⟩ :=
        ih { w with ratelimited := i.env.checkRatelimted w.ratelimited }
      refine ⟨w2, [] ++ e2, added, ?_, hreg, hnd, hnew, ?_⟩
      · simp [runAll, FindRefWorker_claimed i.env i.c w i.path h, hrun]
      · intro p hp
        obtain ⟨j, hj, hjp⟩ := hfrom p hp
        exact ⟨j, List.mem_cons_of_mem _ hj, hjp⟩
    · obtain ⟨w1, e1, hstep, hreg1⟩ := FindRefWorker_past_gate i.env i.c w i.path h
      obtain ⟨w2, e2, added, hrun, hreg, hnd, hnew, hfrom⟩ := ih w1
      refine ⟨w2, e1 ++ e2, added ++ [i.path], ?_, ?_, ?_, ?_, ?_⟩
      · simp [runAll, hstep, hrun]
      · simp [hreg, hreg1]
      · rw [List.nodup_append]
        refine ⟨hnd, List.nodup_singleton _, ?_⟩
        intro p hp hp1
        rw [List.mem_singleton] at hp1
        subst hp1
        exact hnew _ hp (by simp [hreg1])
      · intro p hp
        rcases List.mem_append.mp hp with hp | hp
        · intro hin
          exact hnew p hp (by simp [hreg1, hin])
        · rw [List.mem_singleton] at hp
          subst hp
          exact h
      · intro p hp
        rcases List.mem_append.mp hp with hp | hp
        · obtain ⟨j, hj, hjp⟩ := hfrom p hp
          exact ⟨j, List.mem_cons_of_mem _ hj, hjp⟩
        · rw [List.mem_singleton] at hp
          exact ⟨i, List.mem_cons_self _ _, hp.symm⟩

theorem FindRefWorker_claims (env : Env) (c : FindRefContext) (w w1 : World) (path : String)
    (e : List Effect) (h : FindRefWorker env c w path = some (w1, e)) :
    path ∈ w1.checkedRefs ∧ ∀ q ∈ w.checkedRefs, q ∈ w1.checkedRefs := by
  by_cases hin : path ∈ w.checkedRefs
  · rw [FindRefWorker_claimed env c w path hin] at h
    simp only [Option.some.injEq, Prod.mk.injEq] at h
    obtain ⟨rfl, _⟩ := h
    exact ⟨hin, fun q hq => hq⟩
  · obtain ⟨w2, e2, hstep, hreg⟩ := FindRefWorker_past_gate env c w path hin
    rw [hstep] at h
    simp only [Option.some.injEq, Prod.mk.injEq] at h
    obtain ⟨rfl, _⟩ := h
    rw [hreg]
    exact ⟨List.mem_cons_self _ _, fun q hq => List.mem_cons_of_mem _ hq⟩

theorem runAll_cons (w w2 : World) (i : Invocation) (rest : List Invocation)
    (e : List Effect) (h : runAll w (i :: rest) = some (w2, e)) :
    ∃ w1 e1 e2, FindRefWorker i.env i.c w i.path = some (w1, e1) ∧
      runAll w1 rest = some (w2, e2) ∧ e = e1 ++ e2 := by
  rw [runAll] at h
  cases hstep : FindRefWorker i.env i.c w i.path with
  | none => simp [hstep] at h
  | some r =>
    obtain ⟨wa, ea⟩ := r
    rw [hstep] at h
    cases hrest : runAll wa rest with
    | none => simp [hrest] at h
    | some r2 =>
      obtain ⟨wb, eb⟩ := r2
      simp only [hrest, Option.some.injEq, Prod.mk.injEq] at h
      obtain ⟨rfl, rfl⟩ := h
      exact ⟨wa, ea, eb, rfl, hrest, rfl⟩

theorem runAll_keeps (invs : List Invocation) :
    ∀ (w w1 : World) (e : List Effect), runAll w invs = some (w1, e) →
      ∀ q ∈ w.checkedRefs, q ∈ w1.checkedRefs := by
  induction invs with
  | nil =>
    intro w w1 e h
    simp only [runAll, Option.some.injEq, Prod.mk.injEq] at h
    obtain ⟨rfl, _⟩ := h
    exact fun q hq => hq
  | cons i rest ih =>
    intro w w1 e h q hq
    obtain ⟨wa, ea, eb, hstep, hrest, _⟩ := runAll_cons w w1 i rest e h
    exact ih wa w1 eb hrest q ((FindRefWorker_claims _ _ _ _ _ _ hstep).2 q hq)

theorem runAll_claims (before : List Invocation) (i : Invocation)
    (between : List Invocation) :
    ∀ w : World, ∃ w1 e, runAll w (before ++ i :: between) = some (w1, e) ∧
      i.path ∈ w1.checkedRefs := by
  induction before with
  | nil =>
    intro w
    obtain ⟨w1, e, _, hrun, _⟩ := runAll_registry (i :: between) w
    refine ⟨w1, e, hrun, ?_⟩
    obtain ⟨wa, ea, eb, hstep, hrest, _⟩ := runAll_cons w w1 i between e hrun
    exact runAll_keeps between wa w1 eb hrest _ (FindRefWorker_claims _ _ _ _ _ _ hstep).1
  | cons j rest ih =>
    intro w
    obtain ⟨w1, e, _, hrun, _⟩ := runAll_registry (j :: rest ++ i :: between) w
    refine ⟨w1, e, hrun, ?_⟩
    obtain ⟨wa, ea, eb, _, hrest, _⟩ := runAll_cons w w1 j (rest ++ i :: between) e hrun
    obtain ⟨w2, e2, hrun2, hin⟩ := ih wa
    rw [hrest] at hrun2
    simp only [Option.some.injEq, Prod.mk.injEq] at hrun2
    obtain ⟨rfl, _⟩ := hrun2
    exact hin

/-- C1: a path in the registry `checkedRefs` is never processed again. An
invocation for a path already in the registry returns with no effect at all (no
read, no fetch, no write, no Work Item) and leaves registry and local store as
they were; an invocation that gets past the claim gate puts its path in front
of the registry; so in every sequence of invocations the paths put in front
(`added`, one entry per pass of the gate) are pairwise different and were not
in the registry before, nothing is ever taken out of the registry, and once a
path has had an invocation every later invocation for it is without effect. -/
theorem claimed_path_never_processed_again :
    (∀ (env : Env) (c : FindRefContext) (w : World) (path : String),
      path ∈ w.checkedRefs →
        ∃ w1, FindRefWorker env c w path = some (w1, []) ∧
          w1.checkedRefs = w.checkedRefs ∧ w1.files = w.files) ∧
    (∀ (env : Env) (c : FindRefContext) (w : World) (path : String),
      path ∉ w.checkedRefs →
        ∃ w1 e, FindRefWorker env c w path = some (w1, e) ∧
          w1.checkedRefs = path :: w.checkedRefs) ∧
    (∀ (w : World) (invs : List Invocation),
      ∃ w1 e added, runAll w invs = some (w1, e) ∧
        w1.checkedRefs = added ++ w.checkedRefs ∧ added.Nodup ∧
        (∀ p ∈ added, p ∉ w.checkedRefs) ∧ (∀ p ∈ added, ∃ i ∈ invs, i.path = p)) ∧
    (∀ (w : World) (before : List Invocation) (i : Invocation) (between : List Invocation)
      (later : Invocation), later.path = i.path →
        ∃ w1 e w2, runAll w (before ++ i :: between) = some (w1, e) ∧
          FindRefWorker later.env later.c w1 later.path = some (w2, []) ∧
          w2.checkedRefs = w1.checkedRefs ∧ w2.files = w1.files) := by
  refine ⟨?_, ?_, ?_, ?_⟩
  · intro env c w path h
    exact ⟨_, FindRefWorker_claimed env c w path h, rfl, rfl⟩
  · intro env c w path h
    exact FindRefWorker_past_gate env c w path h
  · intro w invs
    exact runAll_registry invs w
  · intro w before i between later hpath
    obtain ⟨w1, e, hrun, hin⟩ := runAll_claims before i between w
    rw [← hpath] at hin
    exact ⟨w1, e, _, hrun, FindRefWorker_claimed later.env later.c w1 later.path hin, rfl, rfl⟩

theorem claimed_path_never_processed_again_witness :
    ∃ w1 e w2,
      runAll freshWorld
          ([] ++ Invocation.mk (quietEnv none) (serverCtx ⟨200, "ref: refs/heads/main\n", false⟩)
            ".git/HEAD" :: []) = some (w1, e) ∧
        FindRefWorker (quietEnv none) (serverCtx ⟨200, "ref: refs/heads/main\n", false⟩) w1
          ".git/HEAD" = some (w2, []) ∧
        w2.checkedRefs = w1.checkedRefs ∧ w2.files = w1.files :=
  claimed_path_never_processed_again.2.2.2 freshWorld []
    (Invocation.mk (quietEnv none) (serverCtx ⟨200, "ref: refs/heads/main\n", false⟩) ".git/HEAD")
    []
    (Invocation.mk (quietEnv none) (serverCtx ⟨200, "ref: refs/heads/main\n", false⟩) ".git/HEAD")
    rfl

theorem jobs_of_obtained (env : Env) (c : FindRefContext) (w : World) (path content : String)
    (hnew : path ∉ w.checkedRefs)
    (h : Cached env c w path content ∨ Fetched env c w path content) :
    ∃ w1 e, FindRefWorker env c w path = some (w1, e) ∧ jobs e = extracted env path content := by
  rcases h with ⟨hfile, hread⟩ | ⟨hfile, hget, hhtml, hempty, hmkdir, hwrite⟩
  · exact ⟨_, _, FindRefWorker_cached env c w path content hnew hfile hread,
      by simp [jobs, jobs_map_AddJob]⟩
  · exact ⟨_, _, FindRefWorker_fetched env c w path content hnew hfile hget hhtml hempty
      hmkdir hwrite, by simp [jobs, jobs_map_AddJob]⟩

theorem infix_flatMap {α β : Type} (f : α → List β) (l : List α) (x : α) (h : x ∈ l) :
    f x <:+: l.flatMap f := by
  induction l with
  | nil => simp at h
  | cons y rest ih =>
    rcases List.mem_cons.mp h with rfl | h
    · rw [List.flatMap_cons]
      exact (List.prefix_append _ _).isInfix
    · rw [List.flatMap_cons]
      exact (ih h).trans (List.suffix_append _ _).isInfix

/-- C2: for a path that is newly claimed and has no local copy, a GET answering
429 without a transport error sets the rate-limit flag and the only effects are
the GET and one Work Item, the same path; nothing is written to the local
store. -/
theorem rate_limited_fetch_reemits_same_path (env : Env) (c : FindRefContext) (w : World)
    (path : String) (hnew : path ∉ w.checkedRefs)
    (hfile : w.files (targetFile c path) = none)
    (herr : (c.C (utils.Url c.BaseUrl path)).err = false)
    (hcode : (c.C (utils.Url c.BaseUrl path)).code = 429) :
    ∃ w1 e, FindRefWorker env c w path = some (w1, e) ∧
      e = [Effect.Get (utils.Url c.BaseUrl path), Effect.AddJob path] ∧
      w1.ratelimited = true ∧ jobs e = [path] ∧ writes e = [] ∧ w1.files = w.files :=
  ⟨_, _, FindRefWorker_ratelimited env c w path hnew hfile herr hcode, rfl, rfl, rfl, rfl, rfl⟩

theorem rate_limited_fetch_reemits_same_path_witness :
    ∃ w1 e, FindRefWorker (quietEnv none) (serverCtx ⟨429, "", false⟩) freshWorld ".git/HEAD" =
        some (w1, e) ∧
      e = [Effect.Get "http://host/.git/HEAD", Effect.AddJob ".git/HEAD"] ∧
      w1.ratelimited = true ∧ jobs e = [".git/HEAD"] ∧ writes e = [] ∧
      w1.files = freshWorld.files :=
  rate_limited_fetch_reemits_same_path (quietEnv none) (serverCtx ⟨429, "", false⟩) freshWorld
    ".git/HEAD" (by decide) rfl rfl rfl

/-- C3 (what the code does): after an invocation for a path has received 429
and re-emitted the path, the next invocation for that path, whatever the server
would answer now, stops at the claim gate: it performs no effect at all, so it
issues no fetch. -/
theorem retry_after_429_stops_at_claim_gate (env env2 : Env) (c c2 : FindRefContext)
    (w : World) (path : String) (hnew : path ∉ w.checkedRefs)
    (hfile : w.files (targetFile c path) = none)
    (herr : (c.C (utils.Url c.BaseUrl path)).err = false)
    (hcode : (c.C (utils.Url c.BaseUrl path)).code = 429) :
    ∃ w1 w2, FindRefWorker env c w path =
        some (w1, [Effect.Get (utils.Url c.BaseUrl path), Effect.AddJob path]) ∧
      FindRefWorker env2 c2 w1 path = some (w2, []) := by
  refine ⟨_, _, FindRefWorker_ratelimited env c w path hnew hfile herr hcode,
    FindRefWorker_claimed env2 c2 _ path ?_⟩
  simp [setRatelimited, claimed]

theorem retry_after_429_stops_at_claim_gate_witness :
    ∃ w1 w2, FindRefWorker (quietEnv none) (serverCtx ⟨429, "", false⟩) freshWorld ".git/HEAD" =
        some (w1, [Effect.Get "http://host/.git/HEAD", Effect.AddJob ".git/HEAD"]) ∧
      FindRefWorker (quietEnv none) (serverCtx ⟨200, "ref: refs/heads/main\n", false⟩) w1
        ".git/HEAD" = some (w2, []) :=
  retry_after_429_stops_at_claim_gate (quietEnv none) (quietEnv none)
    (serverCtx ⟨429, "", false⟩) (serverCtx ⟨200, "ref: refs/heads/main\n", false⟩) freshWorld
    ".git/HEAD" (by decide) rfl rfl rfl

/-- C4 (as stated, refuted): for the path `.git/HEAD`, which is not
`.git/FETCH_HEAD`, the fetched content `branch "dev"` matches the
branch-declaration pattern and still no Work Item is emitted. -/
theorem branch_scan_skipped_outside_fetch_head :
    branchRegex.FindAllSubmatch "branch \"dev\"" = [["branch \"dev\"", "dev"]] ∧
    (FindRefWorker (quietEnv none) (serverCtx ⟨200, "branch \"dev\"", false⟩) freshWorld
      ".git/HEAD").map (fun r => jobs r.2) = some [] := by
  decide

/-- C4 (amended): for the path `.git/FETCH_HEAD` and every obtained content,
cached or freshly fetched, the Work Items are those of the reference matches
followed, for each match of the branch-declaration pattern in order, by
`.git/refs/remotes/origin/<name>` and `.git/logs/refs/remotes/origin/<name>`;
in particular content `branch "dev"` yields `.git/refs/remotes/origin/dev` and
`.git/logs/refs/remotes/origin/dev`. -/
theorem fetch_head_branch_declarations (env : Env) (c : FindRefContext) (w : World)
    (content : String) (hnew : ".git/FETCH_HEAD" ∉ w.checkedRefs)
    (h : Cached env c w ".git/FETCH_HEAD" content ∨ Fetched env c w ".git/FETCH_HEAD" content) :
    ∃ w1 e, FindRefWorker env c w ".git/FETCH_HEAD" = some (w1, e) ∧
      jobs e = (refRegex.FindAll content).flatMap refItems ++
        (branchNames content).flatMap originItems ∧
      (∀ m ∈ branchRegex.FindAllSubmatch content, ∃ name, m[1]? = some name ∧
        [".git/refs/remotes/origin/" ++ name, ".git/logs/refs/remotes/origin/" ++ name]
          <:+: jobs e) ∧
      (content = "branch \"dev\"" →
        jobs e = [".git/refs/remotes/origin/dev", ".git/logs/refs/remotes/origin/dev"]) := by
  obtain ⟨w1, e, hrun, hjobs⟩ := jobs_of_obtained env c w ".git/FETCH_HEAD" content hnew h
  have hj : jobs e = (refRegex.FindAll content).flatMap refItems ++
      (branchNames content).flatMap originItems := by
    rw [hjobs]
    simp [extracted]
  refine ⟨w1, e, hrun, hj, ?_, ?_⟩
  · intro m hm
    have hlen := FindAllSubmatch_length content m hm
    match m, hlen, hm with
    | [a, b], _, hm =>
      refine ⟨b, rfl, ?_⟩
      have hb : b ∈ branchNames content := by
        simp only [branchNames, List.mem_filterMap]
        exact ⟨[a, b], hm, rfl⟩
      rw [hj]
      exact (infix_flatMap originItems _ b hb).trans (List.suffix_append _ _).isInfix
  · intro hc
    subst hc
    rw [hj]
    decide

theorem fetch_head_branch_declarations_witness :
    ∃ w1 e, FindRefWorker (quietEnv none) (serverCtx ⟨200, "branch \"dev\"", false⟩) freshWorld
        ".git/FETCH_HEAD" = some (w1, e) ∧
      jobs e = (refRegex.FindAll "branch \"dev\"").flatMap refItems ++
        (branchNames "branch \"dev\"").flatMap originItems ∧
      (∀ m ∈ branchRegex.FindAllSubmatch "branch \"dev\"", ∃ name, m[1]? = some name ∧
        [".git/refs/remotes/origin/" ++ name, ".git/logs/refs/remotes/origin/" ++ name]
          <:+: jobs e) ∧
      ("branch \"dev\"" = "branch \"dev\"" →
        jobs e = [".git/refs/remotes/origin/dev", ".git/logs/refs/remotes/origin/dev"]) :=
  fetch_head_branch_declarations (quietEnv none) (serverCtx ⟨200, "branch \"dev\"", false⟩)
    freshWorld "branch \"dev\"" (by decide)
    (Or.inr ⟨rfl, rfl, rfl, by decide, rfl, rfl⟩)

/-- C5: for every obtained content, cached or freshly fetched, the Work Items
begin with, for each match `m` of the reference pattern in order of
occurrence, `join(".git", m)` immediately followed by `join(".git/logs", m)`;
for a path that is neither a configuration path nor `.git/FETCH_HEAD` these are
all the Work Items, so content `refs/heads/main` with a newline yields exactly
`.git/refs/heads/main` and `.git/logs/refs/heads/main`. -/
theorem reference_matches_emitted (env : Env) (c : FindRefContext) (w : World)
    (path content : String) (hnew : path ∉ w.checkedRefs)
    (h : Cached env c w path content ∨ Fetched env c w path content) :
    ∃ w1 e others, FindRefWorker env c w path = some (w1, e) ∧
      jobs e = ((refRegex.FindAll content).flatMap fun m =>
        [utils.Url ".git" m, utils.Url ".git/logs" m]) ++ others ∧
      (path ≠ ".git/FETCH_HEAD" → path ≠ ".git/config" → path ≠ ".git/config.worktree" →
        others = [] ∧
        (content = "refs/heads/main\n" →
          jobs e = [".git/refs/heads/main", ".git/logs/refs/heads/main"])) := by
  obtain ⟨w1, e, hrun, hjobs⟩ := jobs_of_obtained env c w path content hnew h
  refine ⟨w1, e,
    (if path = ".git/FETCH_HEAD" then (branchNames content).flatMap originItems else []) ++
    (if path = ".git/config" ∨ path = ".git/config.worktree" then
      match env.iniLoad content with
      | none => []
      | some sections => sections.flatMap sectionItems
    else []), hrun, ?_, ?_⟩
  · rw [hjobs]
    simp only [extracted, List.append_assoc]
    rfl
  · intro h1 h2 h3
    have hc : ¬(path = ".git/config" ∨ path = ".git/config.worktree") := by
      rintro (hh | hh)
      · exact h2 hh
      · exact h3 hh
    refine ⟨by simp [h1, hc], ?_⟩
    intro hcontent
    subst hcontent
    rw [hjobs]
    simp only [extracted, if_neg h1, if_neg hc, List.append_nil]
    decide

theorem reference_matches_emitted_witness :
    ∃ w1 e others, FindRefWorker (quietEnv none) (serverCtx ⟨404, "", false⟩)
        (storedWorld "out/.git/packed-refs" "refs/heads/main\n") ".git/packed-refs" =
          some (w1, e) ∧
      jobs e = ((refRegex.FindAll "refs/heads/main\n").flatMap fun m =>
        [utils.Url ".git" m, utils.Url ".git/logs" m]) ++ others ∧
      (".git/packed-refs" ≠ ".git/FETCH_HEAD" → ".git/packed-refs" ≠ ".git/config" →
        ".git/packed-refs" ≠ ".git/config.worktree" →
        others = [] ∧
        ("refs/heads/main\n" = "refs/heads/main\n" →
          jobs e = [".git/refs/heads/main", ".git/logs/refs/heads/main"])) :=
  reference_matches_emitted (quietEnv none) (serverCtx ⟨404, "", false⟩)
    (storedWorld "out/.git/packed-refs" "refs/heads/main\n") ".git/packed-refs"
    "refs/heads/main\n" (by decide) (Or.inl ⟨by decide, rfl⟩)

/-- C6 (as stated, refuted): a first invocation for `.git/HEAD` fetches
`refs/heads/main` with a newline, stores it and emits two Work Items; the
second invocation for the same path finds the local location holding that
content and emits nothing, since the path is already claimed. -/
theorem second_invocation_with_local_copy_emits_nothing :
    (FindRefWorker (quietEnv none) (serverCtx ⟨200, "refs/heads/main\n", false⟩) freshWorld
      ".git/HEAD").bind (fun first =>
        (FindRefWorker (quietEnv none) (serverCtx ⟨200, "refs/heads/main\n", false⟩) first.1
          ".git/HEAD").map (fun second =>
            (first.1.files (targetFile (serverCtx ⟨200, "refs/heads/main\n", false⟩) ".git/HEAD"),
              jobs first.2, jobs second.2))) =
      some (some "refs/heads/main\n",
        [".git/refs/heads/main", ".git/logs/refs/heads/main"], []) := by
  decide

/-- C6 (amended): when the local location of a path already holds `b`, the
worker issues no network fetch; when the path is not yet in the registry and
the local copy is read, the Work Items it emits are, in the same order, those
of every invocation for the same path whose fetch outcome is `Fetched(b)`; for
a path already in the registry it emits nothing. -/
theorem cached_content_gives_the_items_of_a_fresh_fetch (env : Env) (c : FindRefContext)
    (wc : World) (path b : String) (hfile : wc.files (targetFile c path) = some b) :
    ∃ wc1 ec, FindRefWorker env c wc path = some (wc1, ec) ∧ fetches ec = [] ∧
      (path ∉ wc.checkedRefs → env.readErr (targetFile c path) = false →
        jobs ec = extracted env path b ∧
        ∀ wf : World, path ∉ wf.checkedRefs → Fetched env c wf path b →
          ∃ wf1 ef, FindRefWorker env c wf path = some (wf1, ef) ∧
            fetches ef = [utils.Url c.BaseUrl path] ∧ jobs ec = jobs ef) ∧
      (path ∈ wc.checkedRefs → ec = []) := by
  by_cases hc : path ∈ wc.checkedRefs
  · exact ⟨_, _, FindRefWorker_claimed env c wc path hc, rfl, fun h => absurd hc h,
      fun _ => rfl⟩
  · cases hread : env.readErr (targetFile c path) with
    | true =>
      exact ⟨_, _, FindRefWorker_unreadable env c wc path b hc hfile hread, rfl,
        fun _ h => by simp at h, fun h => absurd h hc⟩
    | false =>
      refine ⟨_, _, FindRefWorker_cached env c wc path b hc hfile hread, ?_, ?_,
        fun h => absurd h hc⟩
      · simp [fetches, fetches_map_AddJob]
      · intro _ _
        refine ⟨by simp [jobs, jobs_map_AddJob], ?_⟩
        intro wf hf hfetched
        obtain ⟨hfile2, hget, hhtml, hempty, hmkdir, hwrite⟩ := hfetched
        refine ⟨_, _,
          FindRefWorker_fetched env c wf path b hf hfile2 hget hhtml hempty hmkdir hwrite,
          ?_, ?_⟩
        · simp [fetches, fetches_map_AddJob]
        · simp [jobs, jobs_map_AddJob]

theorem cached_content_gives_the_items_of_a_fresh_fetch_witness :
    ∃ wc1 ec,
      FindRefWorker (quietEnv (some [defaultSection, featureSection]))
        (serverCtx
          ⟨200, "[branch \"feature\"]\nremote = upstream\nmerge = refs/heads/feature\n", false⟩)
        (storedWorld "out/.git/config.goop"
          "[branch \"feature\"]\nremote = upstream\nmerge = refs/heads/feature\n")
        ".git/config" = some (wc1, ec) ∧
      fetches ec = [] ∧
      jobs ec = [".git/refs/heads/feature", ".git/logs/refs/heads/feature",
        ".git/refs/remotes/upstream/feature", ".git/logs/refs/remotes/upstream/feature"] ∧
      ∃ wf1 ef,
        FindRefWorker (quietEnv (some [defaultSection, featureSection]))
          (serverCtx
            ⟨200, "[branch \"feature\"]\nremote = upstream\nmerge = refs/heads/feature\n",
              false⟩)
          freshWorld ".git/config" = some (wf1, ef) ∧
        fetches ef = ["http://host/.git/config"] ∧ jobs ec = jobs ef := by
  obtain ⟨wc1, ec, hrun, hfetch, hsame, _⟩ :=
    cached_content_gives_the_items_of_a_fresh_fetch
      (quietEnv (some [defaultSection, featureSection]))
      (serverCtx
        ⟨200, "[branch \"feature\"]\nremote = upstream\nmerge = refs/heads/feature\n", false⟩)
      (storedWorld "out/.git/config.goop"
        "[branch \"feature\"]\nremote = upstream\nmerge = refs/heads/feature\n")
      ".git/config" "[branch \"feature\"]\nremote = upstream\nmerge = refs/heads/feature\n"
      (by decide)
  obtain ⟨hjobs, hfresh⟩ := hsame (by decide) rfl
  refine ⟨wc1, ec, hrun, hfetch, ?_,
    hfresh freshWorld (by decide) ⟨rfl, rfl, rfl, by decide, rfl, rfl⟩⟩
  rw [hjobs]
  decide

/-- C7: for a path with no local copy, when the GET answers 200 and the body is
detected as HTML or is empty, nothing is written to the local store and no Work
Item is emitted, whatever the body contains; past the claim gate the only
effect is the GET. -/
theorem html_or_empty_body_is_discarded (env : Env) (c : FindRefContext) (w : World)
    (path : String) (hfile : w.files (targetFile c path) = none)
    (hcode : (c.C (utils.Url c.BaseUrl path)).code = 200)
    (hbody : env.IsHtml (c.C (utils.Url c.BaseUrl path)).body = true ∨
      (c.C (utils.Url c.BaseUrl path)).body = "") :
    ∃ w1 e, FindRefWorker env c w path = some (w1, e) ∧
      writes e = [] ∧ jobs e = [] ∧ w1.files = w.files ∧
      (path ∉ w.checkedRefs → e = [Effect.Get (utils.Url c.BaseUrl path)]) := by
  by_cases hnew : path ∈ w.checkedRefs
  · exact ⟨_, _, FindRefWorker_claimed env c w path hnew, rfl, rfl, rfl, fun h => absurd hnew h⟩
  · refine ⟨_, _, FindRefWorker_discarded env c w path hnew hfile hcode ?_, rfl, rfl, rfl,
      fun _ => rfl⟩
    rcases hbody with hh | hh
    · exact Or.inl hh
    · exact Or.inr (by rw [hh]; rfl)

theorem html_or_empty_body_is_discarded_witness :
    ∃ w1 e, FindRefWorker htmlEnv
        (serverCtx ⟨200, "<html>refs/heads/main branch \"dev\"</html>", false⟩) freshWorld
        ".git/FETCH_HEAD" = some (w1, e) ∧
      writes e = [] ∧ jobs e = [] ∧ w1.files = freshWorld.files ∧
      (".git/FETCH_HEAD" ∉ freshWorld.checkedRefs →
        e = [Effect.Get "http://host/.git/FETCH_HEAD"]) :=
  html_or_empty_body_is_discarded htmlEnv
    (serverCtx ⟨200, "<html>refs/heads/main branch \"dev\"</html>", false⟩) freshWorld
    ".git/FETCH_HEAD" rfl rfl (Or.inl rfl)

/-- C8: when the path is `.git/config` or `.git/config.worktree` and the
obtained content parses into sections, the Work Items are those of the
reference matches followed, for every section whose name starts with `branch `
in section order, by `.git/refs/remotes/<remote>/<branch>` and
`.git/logs/refs/remotes/<remote>/<branch>` (`<branch>` the remainder of the name
after the first space with surrounding double quotes trimmed, `<remote>` the
section's `remote` key) and by nothing for any other section; the section
`branch "feature"` with `remote = upstream` yields
`.git/refs/remotes/upstream/feature` and `.git/logs/refs/remotes/upstream/feature`. -/
theorem config_sections_emitted (env : Env) (c : FindRefContext) (w : World)
    (path content : String) (sections : List Section)
    (hpath : path = ".git/config" ∨ path = ".git/config.worktree")
    (hnew : path ∉ w.checkedRefs)
    (h : Cached env c w path content ∨ Fetched env c w path content)
    (hini : env.iniLoad content = some sections) :
    ∃ w1 e, FindRefWorker env c w path = some (w1, e) ∧
      jobs e = (refRegex.FindAll content).flatMap refItems ++ sections.flatMap sectionItems ∧
      (∀ sec ∈ sections, strings.HasPrefix sec.Name "branch " = false → sectionItems sec = []) ∧
      (∀ sec ∈ sections, strings.HasPrefix sec.Name "branch " = true →
        (strings.SplitN sec.Name " " 2)[1]? = some (afterFirstSpace sec.Name) ∧
        sectionItems sec =
          [".git/refs/remotes/" ++ sec.Key "remote" ++ "/" ++
              strings.Trim (afterFirstSpace sec.Name) "\"",
           ".git/logs/refs/remotes/" ++ sec.Key "remote" ++ "/" ++
              strings.Trim (afterFirstSpace sec.Name) "\""]) ∧
      (sections = [featureSection] →
        sections.flatMap sectionItems =
          [".git/refs/remotes/upstream/feature", ".git/logs/refs/remotes/upstream/feature"]) := by
  obtain ⟨w1, e, hrun, hjobs⟩ := jobs_of_obtained env c w path content hnew h
  have hf : path ≠ ".git/FETCH_HEAD" := by
    rcases hpath with rfl | rfl <;> decide
  refine ⟨w1, e, hrun, ?_, ?_, ?_, ?_⟩
  · rw [hjobs]
    simp only [extracted, if_neg hf, if_pos hpath, hini, List.append_nil]
  · intro sec _ hsec
    simp [sectionItems, hsec]
  · intro sec _ hsec
    exact ⟨by rw [SplitN_branch hsec]; rfl, by simp [sectionItems, hsec]⟩
  · intro hs
    subst hs
    decide

theorem config_sections_emitted_witness :
    ∃ w1 e, FindRefWorker (quietEnv (some [featureSection]))
        (serverCtx ⟨200, "[branch \"feature\"]\nremote = upstream\n", false⟩) freshWorld
        ".git/config" = some (w1, e) ∧
      jobs e = (refRegex.FindAll "[branch \"feature\"]\nremote = upstream\n").flatMap refItems ++
        [featureSection].flatMap sectionItems ∧
      (∀ sec ∈ [featureSection], strings.HasPrefix sec.Name "branch " = false →
        sectionItems sec = []) ∧
      (∀ sec ∈ [featureSection], strings.HasPrefix sec.Name "branch " = true →
        (strings.SplitN sec.Name " " 2)[1]? = some (afterFirstSpace sec.Name) ∧
        sectionItems sec =
          [".git/refs/remotes/" ++ sec.Key "remote" ++ "/" ++
              strings.Trim (afterFirstSpace sec.Name) "\"",
           ".git/logs/refs/remotes/" ++ sec.Key "remote" ++ "/" ++
              strings.Trim (afterFirstSpace sec.Name) "\""]) ∧
      ([featureSection] = [featureSection] →
        [featureSection].flatMap sectionItems =
          [".git/refs/remotes/upstream/feature", ".git/logs/refs/remotes/upstream/feature"]) :=
  config_sections_emitted (quietEnv (some [featureSection]))
    (serverCtx ⟨200, "[branch \"feature\"]\nremote = upstream\n", false⟩) freshWorld
    ".git/config" "[branch \"feature\"]\nremote = upstream\n" [featureSection]
    (Or.inl rfl) (by decide) (Or.inr ⟨rfl, rfl, rfl, by decide, rfl, rfl⟩) rfl

theorem targetFile_config (c : FindRefContext) :
    targetFile c ".git/config" = utils.Url c.BaseDir ".git/config.goop" ∧
    targetFile c ".git/config.worktree" = utils.Url c.BaseDir ".git/config.worktree.goop" :=
  ⟨rfl, rfl⟩

theorem targetFile_ordinary (c : FindRefContext) (p : String)
    (h : ¬(p = ".git/config" ∨ p = ".git/config.worktree")) :
    targetFile c p = utils.Url c.BaseDir p := by
  simp only [targetFile, if_neg h]

/-- C9 (as stated, refuted): the two different paths `.git/config` and
`.git/config.goop` have the same local location. -/
theorem config_location_shared_with_goop_path :
    ".git/config" ≠ ".git/config.goop" ∧
    targetFile (serverCtx ⟨404, "", false⟩) ".git/config" =
      targetFile (serverCtx ⟨404, "", false⟩) ".git/config.goop" := by
  decide

/-- C9 (amended): for every base directory the mapping is `base/path` for
ordinary paths and `base/path` with `.goop` appended for `.git/config` and
`.git/config.worktree`. It does not send different paths to different
locations: `.git/config` has the location of the path `.git/config.goop`, and
`.git/config.worktree` that of `.git/config.worktree.goop`. The location of
`.git/config` is distinct from that of `.git/HEAD`: the two end in the
different file names `config.goop` and `HEAD`. -/
theorem targetFile_reserved_suffix (c : FindRefContext) :
    targetFile c ".git/config" = utils.Url c.BaseDir ".git/config.goop" ∧
    targetFile c ".git/config.worktree" = utils.Url c.BaseDir ".git/config.worktree.goop" ∧
    (∀ p : String, p ≠ ".git/config" → p ≠ ".git/config.worktree" →
      targetFile c p = utils.Url c.BaseDir p) ∧
    targetFile c ".git/config" = targetFile c ".git/config.goop" ∧
    targetFile c ".git/config.worktree" = targetFile c ".git/config.worktree.goop" ∧
    targetFile c ".git/config" ≠ targetFile c ".git/HEAD" ∧
    lastSegment (targetFile c ".git/config") = "config.goop" ∧
    lastSegment (targetFile c ".git/HEAD") = "HEAD" := by
  have hseg1 : lastSegment (targetFile c ".git/config") = "config.goop" := by
    rw [(targetFile_config c).1]
    apply String.ext
    simp [lastSegment, utils.Url, List.takeWhile]
  have hseg2 : lastSegment (targetFile c ".git/HEAD") = "HEAD" := by
    rw [targetFile_ordinary c ".git/HEAD" (by decide)]
    apply String.ext
    simp [lastSegment, utils.Url, List.takeWhile]
  refine ⟨(targetFile_config c).1, (targetFile_config c).2, ?_, rfl, rfl, ?_, hseg1, hseg2⟩
  · intro p h1 h2
    exact targetFile_ordinary c p (fun h => h.elim h1 h2)
  · intro h
    rw [h, hseg2] at hseg1
    revert hseg1
    decide

/-- C10: no indexed access of the worker is out of range, so the worker
returns on every input: a section name with the prefix `branch ` split on the
first space into at most 2 parts has exactly 2 parts, every match of
`branchRegex` carries its capture group, both loops run to their end on every
list of sections and every content, and `FindRefWorker` never stops with a
run-time error. -/
theorem indexed_accesses_in_range :
    (∀ name : String, strings.HasPrefix name "branch " = true →
      (strings.SplitN name " " 2).length = 2 ∧ (strings.SplitN name " " 2)[1]?.isSome = true) ∧
    (∀ content : String, ∀ m ∈ branchRegex.FindAllSubmatch content,
      m.length = 2 ∧ m[1]?.isSome = true) ∧
    (∀ sections : List Section, (sectionLoop sections).isSome = true) ∧
    (∀ content : String, (branchLoop (branchRegex.FindAllSubmatch content)).isSome = true) ∧
    (∀ (env : Env) (c : FindRefContext) (w : World) (path : String),
      (FindRefWorker env c w path).isSome = true) := by
  refine ⟨?_, ?_, ?_, ?_, FindRefWorker_isSome⟩
  · intro name h
    rw [SplitN_branch h]
    exact ⟨rfl, rfl⟩
  · intro content m hm
    have hlen := FindAllSubmatch_length content m hm
    match m, hlen with
    | [_, _], _ => exact ⟨rfl, rfl⟩
  · intro sections
    rw [sectionLoop_eq]
    rfl
  · intro content
    rw [branchLoop_FindAllSubmatch]
    rfl

theorem indexed_accesses_in_range_witness :
    (strings.SplitN "branch " " " 2).length = 2 ∧
    (FindRefWorker (quietEnv (some [{ Name := "branch ", Key := fun _ => "" }]))
      (serverCtx ⟨404, "", false⟩) (storedWorld "out/.git/config.goop" "[branch ]\n")
      ".git/config").isSome = true :=
  ⟨(indexed_accesses_in_range.1 "branch " (by decide)).1,
    indexed_accesses_in_range.2.2.2.2 _ _ _ _⟩

end FindRef
